import Mathlib

/- Verification development for the CSI (Clean Street Index) computation core,
a shallow embedding of `SmartAssist/models/csi/src/computation.py`.

Modelling conventions:
* 2D integer masks (numpy arrays of class labels) are `List (List ℕ)`, row major;
  numpy arrays are rectangular, and theorems that depend on shape carry explicit
  rectangularity or equal-shape hypotheses.
* float arithmetic is modelled exactly over `ℚ`.  Because `Rat.add`, `Rat.mul`,
  `Rat.sub`, `Rat.inv` are `@[irreducible]` in this toolchain, the embedding
  computes with wrappers (`qAdd`, ...) defined through `mkRat`, which the kernel
  does reduce; bridge lemmas identify each wrapper with the corresponding field
  operation on `ℚ`, so statements can be read with ordinary arithmetic.
* Python exceptions are modelled with `Except PyErr`; `np.nan` results are the
  `none` case of an `Option` (the code only ever produces NaN in both components
  at once, so a result is `Option (relative × absolute)`).
* `compute_csi` mutates its argument arrays in place (`road_mask *= trapezoid_mask`,
  `garbage_mask *= road_mask`), so its embedding returns, next to the score pair,
  the final contents of the two caller-visible arrays (explicit state passing).
-/

set_option maxRecDepth 2000000

namespace Csi

/-- Kinds of Python exceptions the embedded code can raise. -/
inductive PyErr where
  | valueError (msg : String)
  | zeroDivisionError
  | indexError
deriving DecidableEq

instance {ε α : Type} [DecidableEq ε] [DecidableEq α] : DecidableEq (Except ε α) := fun a b =>
  match a, b with
  | .ok x, .ok y =>
    if h : x = y then isTrue (by rw [h]) else isFalse (fun hc => h (Except.ok.inj hc))
  | .error x, .error y =>
    if h : x = y then isTrue (by rw [h]) else isFalse (fun hc => h (Except.error.inj hc))
  | .ok _, .error _ => isFalse (fun hc => Except.noConfusion hc)
  | .error _, .ok _ => isFalse (fun hc => Except.noConfusion hc)

/-! Computable rational arithmetic wrappers. -/

/-- Computable addition on `ℚ` (definitionally reducible, unlike `Rat.add`). -/
def qAdd (a b : ℚ) : ℚ := mkRat (a.num * b.den + b.num * a.den) (a.den * b.den)

/-- Computable subtraction on `ℚ`. -/
def qSub (a b : ℚ) : ℚ := mkRat (a.num * b.den - b.num * a.den) (a.den * b.den)

/-- Computable multiplication on `ℚ`. -/
def qMul (a b : ℚ) : ℚ := mkRat (a.num * b.num) (a.den * b.den)

/-- Computable inverse on `ℚ` (`0⁻¹ = 0`, as in `Rat.inv`). -/
def qInv (a : ℚ) : ℚ := Rat.divInt a.den a.num

/-- Computable division on `ℚ` (`x / 0 = 0`). -/
def qDiv (a b : ℚ) : ℚ := qMul a (qInv b)

/-- Computable absolute value on `ℚ`. -/
def qAbs (a : ℚ) : ℚ := mkRat a.num.natAbs a.den

theorem qAdd_eq (a b : ℚ) : qAdd a b = a + b := (Rat.add_def' a b).symm

theorem qSub_eq (a b : ℚ) : qSub a b = a - b := (Rat.sub_def' a b).symm

theorem qMul_eq (a b : ℚ) : qMul a b = a * b := by
  rw [qMul, Rat.mul_def, Rat.normalize_eq_mkRat]

theorem qInv_eq (a : ℚ) : qInv a = a⁻¹ := by
  rw [qInv, ← Rat.inv_def]; rfl

theorem qDiv_eq (a b : ℚ) : qDiv a b = a / b := by
  rw [qDiv, qMul_eq, qInv_eq, div_eq_mul_inv]

theorem qAbs_eq (a : ℚ) : qAbs a = |a| := by
  rcases le_or_lt 0 a.num with h | h
  · rw [abs_of_nonneg (by rwa [← Rat.num_nonneg])]
    rw [qAbs, Int.natAbs_of_nonneg h, Rat.mkRat_self]
  · rw [abs_of_neg (by rw [← Rat.num_neg]; exact h)]
    rw [qAbs, Int.ofNat_natAbs_of_nonpos (le_of_lt h), ← Rat.neg_mkRat, Rat.mkRat_self]

/-- Exact sum of a list of rationals as one unreduced fraction
`(numerator, denominator)` over plain integers. -/
def qlsumND (l : List ℚ) : ℤ × ℤ :=
  l.foldr (fun q p => (q.num * p.2 + p.1 * (q.den : ℤ), (q.den : ℤ) * p.2)) (0, 1)

/-- Sum of a list of rationals (computable: the running fraction is kept in
plain integers and normalized once at the end). -/
def qlsum (l : List ℚ) : ℚ := Rat.divInt (qlsumND l).1 (qlsumND l).2

theorem qlsumND_den_ne (l : List ℚ) : (qlsumND l).2 ≠ 0 := by
  induction l with
  | nil => simp [qlsumND]
  | cons x xs ih =>
    show ((x.den : ℤ)) * (qlsumND xs).2 ≠ 0
    exact mul_ne_zero (Int.natCast_ne_zero.mpr x.den_nz) ih

theorem qlsum_eq (l : List ℚ) : qlsum l = l.sum := by
  induction l with
  | nil => decide
  | cons x xs ih =>
    have hd := qlsumND_den_ne xs
    have hx : ((x.den : ℤ)) ≠ 0 := Int.natCast_ne_zero.mpr x.den_nz
    show Rat.divInt (x.num * (qlsumND xs).2 + (qlsumND xs).1 * (x.den : ℤ))
        ((x.den : ℤ) * (qlsumND xs).2) = (x :: xs).sum
    rw [List.sum_cons, ← ih]
    show _ = x + Rat.divInt (qlsumND xs).1 (qlsumND xs).2
    rw [← Rat.divInt_add_divInt _ _ hx hd, Rat.divInt_self]

/-! The data model: 2D masks. -/

/-- A 2D integer mask (numpy `(H, W)` array of small nonnegative class labels). -/
abbrev Mask := List (List ℕ)

/-- A 2D float matrix (numpy `(H, W)` float array), modelled over `ℚ`. -/
abbrev QMat := List (List ℚ)

/-- Number of columns of a mask (length of its first row; numpy arrays are
rectangular). -/
def nColsOf (m : Mask) : ℕ := (m.headD []).length

/-- A mask is rectangular: every row has length `nColsOf m`. -/
def Rect (m : Mask) : Prop := ∀ r ∈ m, r.length = nColsOf m

instance (m : Mask) : Decidable (Rect m) := by
  unfold Rect; infer_instance

/-- `numpy`'s `array.any()`: some entry is nonzero. -/
def maskAny (m : Mask) : Bool := m.any (fun r => r.any (fun x => x != 0))

/-- `np.sum` of an integer mask. -/
def maskSum (m : Mask) : ℕ := (m.map (fun r => r.foldr (· + ·) 0)).foldr (· + ·) 0

/-- Elementwise product of two masks (`a * b` / `a *= b` on equal-shaped arrays). -/
def elemMul (a b : Mask) : Mask := List.zipWith (fun ra rb => List.zipWith (· * ·) ra rb) a b

/-- `np.isin(np.unique(m), ids).all()`: every pixel value is a member of `ids`. -/
def labelsValid (m : Mask) (ids : List ℕ) : Bool := m.all (fun r => r.all (fun x => x ∈ ids))

/-- Column `j` contains at least one nonzero pixel
(`np.any(src > 0, axis=0)` at index `j`). -/
def colNonzero (m : Mask) (j : ℕ) : Bool := m.any (fun r => r.getD j 0 != 0)

/-- The (ascending) list of column indices holding at least one nonzero pixel
(`np.where(np.any(src > 0, axis=0))[0]`). -/
def nonzeroCols (m : Mask) : List ℕ := (List.range (nColsOf m)).filter (colNonzero m)

/-- The specification-level reading of "column `j` contains at least one
nonzero pixel": `j` is a column of the mask and some row is nonzero there. -/
def IsNonzeroCol (m : Mask) (j : ℕ) : Prop :=
  j < nColsOf m ∧ ∃ r ∈ m, r.getD j 0 ≠ 0

instance (m : Mask) (j : ℕ) : Decidable (IsNonzeroCol m j) := by
  unfold IsNonzeroCol; infer_instance

/-! `find_xmin_xmax` (computation.py lines 14-64). -/

/-- Embeds `find_xmin_xmax`: first and last column index containing a nonzero
pixel.  The `ndim == 2` debug check is enforced by the `Mask` type; the
remaining debug checks and the empty/single-column failures raise `ValueError`. -/
def findXminXmax (src : Mask) : Except PyErr (ℕ × ℕ) :=
  if src.length < 1 then .error (.valueError "invalid rows") else
  if nColsOf src < 1 then .error (.valueError "invalid cols") else
  match nonzeroCols src with
  | [] => .error (.valueError "only zeros")
  | x :: xs =>
    let xmax := xs.getLastD x
    if x = xmax then .error (.valueError "one column") else .ok (x, xmax)

/-! `get_weight_matrix_linspace` (computation.py lines 67-151). -/

/-- Slice assignment `row[start : start+vals.length] = vals` on a list. -/
def assignSlice (row : List ℚ) (start : ℕ) (vals : List ℚ) : List ℚ :=
  row.take start ++ vals ++ row.drop (start + vals.length)

/-- `np.linspace(start, stop, num)` over `ℚ`. -/
def linspaceQ (start stop : ℚ) (num : ℕ) : List ℚ :=
  if num = 1 then [start]
  else (List.range num).map (fun (k : ℕ) =>
    qAdd start (qDiv (qMul ((k : ℚ)) (qSub stop start)) ((num - 1 : ℕ) : ℚ)))

/-- The sequential clamping of `(linsp_start, linsp_stop)` (lines 103-116):
negative start is reset to 0, stop above 1 is reset to 1, and if start still
exceeds stop both are reset to the defaults `(0, 1)`. -/
def clampStartStop (s t : ℚ) : ℚ × ℚ :=
  let s1 : ℚ := if s < 0 then 0 else s
  let t1 : ℚ := if 1 < t then 1 else t
  if t1 < s1 then ((0 : ℚ), (1 : ℚ)) else (s1, t1)

/-- The sequential clamping of `n_bins` (lines 118-127): raise to 2, then
lower to `n_cols // 2`. -/
def clampBins (nCols : ℕ) (nBins : ℤ) : ℤ :=
  let b1 : ℤ := if nBins < 2 then 2 else nBins
  if ((nCols / 2 : ℕ) : ℤ) < b1 then ((nCols / 2 : ℕ) : ℤ) else b1

/-- `np.repeat(weights, grouping)` with `grouping = n_cols // (n_bins * 2)`
(lines 132-141, one row of `matrix_weights`). -/
def weightMRow (nCols nb : ℕ) (s t : ℚ) : List ℚ :=
  (linspaceQ s t nb).flatMap (fun w => List.replicate (nCols / (nb * 2)) w)

/-- One row of the weight field: a row of ones overwritten by the ramp on the
left and by the mirrored ramp on the right (lines 138-149; every row of the
field is identical). -/
def weightRow (nCols nb : ℕ) (s t : ℚ) : List ℚ :=
  assignSlice (assignSlice (List.replicate nCols (1 : ℚ)) 0 (weightMRow nCols nb s t))
    (nCols - (weightMRow nCols nb s t).length) (weightMRow nCols nb s t).reverse

/-- Embeds `get_weight_matrix_linspace`: symmetric edge-to-center weight field.
Parameter clamping follows the source line by line; `n_cols // (n_bins * 2)`
raises `ZeroDivisionError` when the clamped `n_bins` is zero (which happens for
`n_cols = 1`). -/
def getWeightMatrixLinspace (nRows nCols : ℕ) (nBins : ℤ) (linspStart linspStop : ℚ) :
    Except PyErr QMat :=
  if nRows = 0 then .error (.valueError "invalid n_rows") else
  if nCols = 0 then .error (.valueError "invalid n_cols") else
  if (clampBins nCols nBins).toNat * 2 = 0 then .error .zeroDivisionError else
  .ok (List.replicate nRows (weightRow nCols (clampBins nCols nBins).toNat
    (clampStartStop linspStart linspStop).1 (clampStartStop linspStart linspStop).2))

/-! `compute_csi` (computation.py lines 248-372). -/

/-- The static configuration consumed by `compute_csi`. -/
structure CsiParams where
  roadClassIds : List ℕ
  garbageClassIds : List ℕ
  nBins : ℤ
  linspStart : ℚ
  linspStop : ℚ
  percentageDirtyRoad : ℚ
  garbageTypeCoeffs : List ℚ
  smooth : ℚ
  clipCsi : Bool

/-- Cast an integer mask row to float (`astype(np.float32)`, modelled exactly). -/
def castRow (r : List ℕ) : List ℚ := r.map (fun x => (x : ℚ))

/-- `road_mask[:, x_min : x_max + 1] *= w` on one row. -/
def sliceMulRow (xmin xmax : ℕ) (r : List ℚ) (w : List ℚ) : List ℚ :=
  r.take xmin ++ List.zipWith qMul ((r.drop xmin).take (xmax + 1 - xmin)) w ++
    r.drop (xmax + 1)

/-- Weighted area of garbage of type `label` on one row: the row of
`road_mask * thresh` where `thresh` is the binary indicator of `label`. -/
def threshMulRow (label : ℕ) (wr : List ℚ) (gr : List ℕ) : List ℚ :=
  List.zipWith (fun w g => qMul w (if g = label then (1 : ℚ) else 0)) wr gr

/-- `np.sum(road_mask * thresh)` for the sub-mask of one garbage type. -/
def garbageArea (roadW : QMat) (garbage : Mask) (label : ℕ) : ℚ :=
  qlsum (List.zipWith (fun wr gr => qlsum (threshMulRow label wr gr)) roadW garbage)

/-- The `for label in labels` loop filling `garbage_areas[label - 1]`; a label
beyond the coefficient list raises `IndexError` (Python list indexing). -/
def setGarbageAreas (roadW : QMat) (garbage : Mask) :
    List ℕ → List ℚ → Except PyErr (List ℚ)
  | [], areas => .ok areas
  | l :: ls, areas =>
    if l - 1 < areas.length then
      setGarbageAreas roadW garbage ls (areas.set (l - 1) (garbageArea roadW garbage l))
    else .error .indexError

/-- `max(garbage_type_coeffs)` (Python `max` on a nonempty list). -/
def maxList : List ℚ → ℚ
  | [] => 0
  | [x] => x
  | x :: y :: ys => let m := maxList (y :: ys); if m < x then x else m

/-- The accumulation loop for the relative CSI
(`csi_relative += coeffs[i] * (areas[i] / denom)`). -/
def relativeSum (coeffs areas : List ℚ) (denom : ℚ) : ℚ :=
  qlsum (List.zipWith (fun c a => qMul c (qDiv a denom)) coeffs areas)

/-- Embeds `compute_csi`.  The result is
`(score?, final road array, final garbage array)`: `score? = none` is the
`(np.nan, np.nan)` sentinel pair, otherwise `some (relative, absolute)`.
The final arrays record the caller-visible contents of `road_mask` and
`garbage_mask` after the in-place `*=` filtering (a `none` road means the
input was `None`).  The `try` block of the source catches exactly
`ValueError` from the extent/weight computations. -/
def computeCsi (roadMask : Option Mask) (garbageMask trapezoidMask : Mask) (p : CsiParams) :
    Except PyErr (Option (ℚ × ℕ) × Option Mask × Mask) :=
  match roadMask with
  | none => .ok (none, none, garbageMask)
  | some road =>
    if maskAny road = false then .ok (none, some road, garbageMask) else
    if labelsValid road p.roadClassIds = false then
      .error (.valueError "road labels") else
    if labelsValid garbageMask p.garbageClassIds = false then
      .error (.valueError "garbage labels") else
    let road1 := elemMul road trapezoidMask
    let garbage1 := elemMul garbageMask road1
    let csiAbsolute := maskSum garbage1
    match findXminXmax road1 with
    | .error (.valueError _) => .ok (none, some road1, garbage1)
    | .error e => .error e
    | .ok (xmin, xmax) =>
      match getWeightMatrixLinspace garbage1.length ((xmax + 1) - xmin)
          p.nBins p.linspStart p.linspStop with
      | .error (.valueError _) => .ok (none, some road1, garbage1)
      | .error e => .error e
      | .ok wmat =>
        let roadW := List.zipWith (fun r w => sliceMulRow xmin xmax (castRow r) w) road1 wmat
        let roadArea := qlsum (roadW.map qlsum)
        let labels := (garbage1.flatten.filter (fun x => x != 0)).dedup
        match setGarbageAreas roadW garbage1 labels
            (List.replicate p.garbageTypeCoeffs.length 0) with
        | .error e => .error e
        | .ok areas =>
          match p.garbageTypeCoeffs with
          | [] => .error (.valueError "max of empty sequence")
          | c :: cs =>
            let denom := qAdd (qMul p.percentageDirtyRoad roadArea) p.smooth
            let rel0 := relativeSum (c :: cs) areas denom
            let rel1 := qDiv rel0 (maxList (c :: cs))
            let rel := if p.clipCsi then
                (if rel1 < 0 then 0 else if (1 : ℚ) < rel1 then 1 else rel1)
              else rel1
            .ok (some (rel, csiAbsolute), some road1, garbage1)

/-! `get_discrete_csi` (computation.py lines 375-406). -/

/-- Tail of `np.argmin`: scan with current best value/index, replacing the best
only on a strict decrease (so ties keep the lowest index). -/
def argminGo : List ℚ → ℚ → ℕ → ℕ → ℕ
  | [], _, bi, _ => bi
  | y :: ys, best, bi, i =>
    if y < best then argminGo ys y i (i + 1) else argminGo ys best bi (i + 1)

/-- `np.argmin`: index of the first minimal element (0 on the empty list). -/
def argminFirst : List ℚ → ℕ
  | [] => 0
  | x :: xs => argminGo xs x 0 1

/-- Embeds `get_discrete_csi`.  The continuous input is `Option ℚ` with `none`
playing NaN; the result pair `(np.nan, np.nan)` is again `none`. -/
def getDiscreteCsi (levels : List ℚ) (continuousCsi : Option ℚ) :
    Except PyErr (Option (ℚ × ℕ)) :=
  if levels.length = 0 then .error (.valueError "invalid levels") else
  match continuousCsi with
  | none => .ok none
  | some c =>
    let distances := levels.map (fun l => qAbs (qSub l c))
    let minIndex := argminFirst distances
    .ok (some (levels.getD minIndex 0, minIndex))

/-! Concrete inputs for the spec's end-to-end scenario (§8 of the spec):
100×100 road mask, label 1 outside a 10-pixel zero border; one 5×5 block of
label 2 at the image center; region mask equal to the road interior;
default weight-field parameters from `constants.py`
(`n_bins = 48`, `linsp_start = 0.7`, `linsp_stop = 1.0`). -/

/-- Build an `r × c` mask from an entry function. -/
def mkMask (r c : ℕ) (f : ℕ → ℕ → ℕ) : Mask :=
  (List.range r).map (fun i => (List.range c).map (fun j => f i j))

/-- A zero row of the scenario masks. -/
def zRowC1 : List ℕ := List.replicate 100 0

/-- An interior row of the scenario road mask (1 outside the 10px border). -/
def iRowC1 : List ℕ := List.replicate 10 0 ++ List.replicate 80 1 ++ List.replicate 10 0

/-- A block row of the scenario garbage mask (label 2 on columns 48-52). -/
def gbRowC1 : List ℕ := List.replicate 48 0 ++ List.replicate 5 2 ++ List.replicate 47 0

/-- Scenario road mask: 100×100, label 1 except a 10px zero border
(rows 10-89 are interior rows; see `roadC1_spec` for the pixelwise reading). -/
def roadC1 : Mask :=
  List.replicate 10 zRowC1 ++ List.replicate 80 iRowC1 ++ List.replicate 10 zRowC1

/-- Scenario garbage mask: a single 5×5 block of label 2 at the image center
(rows 48-52, columns 48-52; see `garbageC1_spec`). -/
def garbageC1 : Mask :=
  List.replicate 48 zRowC1 ++ List.replicate 5 gbRowC1 ++ List.replicate 47 zRowC1

/-- Scenario parameters: class id sets, coefficients `[0.6, 0.7]`,
`dirty_road_fraction = 0.5`, `smooth = 2e-22`, `clip = false`, and the default
weight-field parameters. -/
def paramsC1 : CsiParams :=
  { roadClassIds := [0, 1]
    garbageClassIds := [0, 1, 2]
    nBins := 48
    linspStart := mkRat 7 10
    linspStop := 1
    percentageDirtyRoad := mkRat 1 2
    garbageTypeCoeffs := [mkRat 6 10, mkRat 7 10]
    smooth := mkRat 2 (10 ^ 22)
    clipCsi := false }

/-- The scenario run (region mask = the road interior itself, full coverage). -/
def csiC1 : Except PyErr (Option (ℚ × ℕ) × Option Mask × Mask) :=
  computeCsi (some roadC1) garbageC1 roadC1 paramsC1

/-- The exact relative score of the scenario (in lowest terms). -/
def relC1 : ℚ := mkRat 1615000000000000000000000 176800000000000000000000013

/-- The weight row of the scenario (extent width 80, clamped bins 40,
edge 0.7, center 1). -/
def wRowC1 : List ℚ := weightRow 80 40 (mkRat 7 10) 1

/-- A weighted zero road row of the scenario. -/
def wzRowC1 : List ℚ := sliceMulRow 10 89 (castRow zRowC1) wRowC1

/-- A weighted interior road row of the scenario. -/
def wiRowC1 : List ℚ := sliceMulRow 10 89 (castRow iRowC1) wRowC1

/-- Projection onto the final (caller-visible) contents of the two input
arrays after a non-raising call. -/
def finalMasks (r : Except PyErr (Option (ℚ × ℕ) × Option Mask × Mask)) :
    Option (Option Mask × Mask) :=
  match r with
  | .ok (_, fr, fg) => some (fr, fg)
  | .error _ => none

/-- Default-style parameters (from `constants.py`, with a single unit
coefficient, `dirty_road_fraction = 1` and `smooth = 0`) used by small
concrete witnesses. -/
def pW : CsiParams :=
  { roadClassIds := [0, 1]
    garbageClassIds := [0, 1, 2]
    nBins := 48
    linspStart := mkRat 7 10
    linspStop := 1
    percentageDirtyRoad := 1
    garbageTypeCoeffs := [1]
    smooth := 0
    clipCsi := false }

/-! General lemmas about the embedding. -/

theorem maskAny_eq_false_iff (m : Mask) :
    maskAny m = false ↔ ∀ r ∈ m, ∀ x ∈ r, x = 0 := by
  simp [maskAny]

theorem colNonzero_iff (m : Mask) (j : ℕ) :
    colNonzero m j = true ↔ ∃ r ∈ m, r.getD j 0 ≠ 0 := by
  simp [colNonzero]

theorem mem_nonzeroCols (m : Mask) (j : ℕ) :
    j ∈ nonzeroCols m ↔ IsNonzeroCol m j := by
  simp [nonzeroCols, List.mem_filter, List.mem_range, colNonzero_iff, IsNonzeroCol, and_comm]

theorem nonzeroCols_pairwise (m : Mask) : (nonzeroCols m).Pairwise (· < ·) :=
  (List.pairwise_lt_range _).filter _

theorem nonzeroCols_nodup (m : Mask) : (nonzeroCols m).Nodup :=
  (nonzeroCols_pairwise m).imp Nat.ne_of_lt

/-! Claim C10: NaN propagation in `get_discrete_csi`. -/

/-- C10, counterexample: with an EMPTY levels array, `get_discrete_csi` raises
`ValueError` even when the continuous score is NaN, instead of returning
`(NaN, NaN)`; so the claim's "for every levels array ... raises no error"
fails at `levels = []`. -/
theorem getDiscreteCsi_empty_levels_raises :
    getDiscreteCsi [] none = .error (.valueError "invalid levels") ∧
    ∀ msg, (Except.error (.valueError msg) :
      Except PyErr (Option (ℚ × ℕ))) ≠ .ok none := by
  exact ⟨rfl, fun _ h => Except.noConfusion h⟩

/-- C10 (amended): for every NON-EMPTY levels array, `get_discrete_csi` with a
NaN continuous score returns `(NaN, NaN)` regardless of the level values, and
raises no error. -/
theorem getDiscreteCsi_nan_propagates (levels : List ℚ) (h : levels ≠ []) :
    getDiscreteCsi levels none = .ok none := by
  unfold getDiscreteCsi
  rw [if_neg (by simpa [List.length_eq_zero] using h)]

/-- Witness for C10's amended theorem at `levels = [0]`. -/
theorem getDiscreteCsi_nan_propagates_witness :
    getDiscreteCsi [(0 : ℚ)] none = .ok none :=
  getDiscreteCsi_nan_propagates [0] (by decide)

/-! Claim C3: the "nothing to score" early exits of `compute_csi`. -/

/-- C3: for every road mask that is `None` or contains only zero pixels,
`compute_csi` returns `(NaN, NaN)`, leaves the inputs untouched, and raises
no exception. -/
theorem computeCsi_nothing_to_score (road? : Option Mask) (garbage trap : Mask)
    (p : CsiParams)
    (h : road? = none ∨ ∃ road, road? = some road ∧ ∀ r ∈ road, ∀ x ∈ r, x = 0) :
    computeCsi road? garbage trap p = .ok (none, road?, garbage) := by
  rcases h with rfl | ⟨road, rfl, hz⟩
  · rfl
  · have hfalse : maskAny road = false := (maskAny_eq_false_iff road).mpr hz
    simp [computeCsi, hfalse]

/-- Witness for C3 at a concrete all-zero road mask. -/
theorem computeCsi_nothing_to_score_witness :
    computeCsi (some [[0, 0], [0, 0]]) [[1, 0], [0, 0]] [[1, 1], [1, 1]] pW =
      .ok (none, some [[0, 0], [0, 0]], [[1, 0], [0, 0]]) :=
  computeCsi_nothing_to_score _ _ _ _ (Or.inr ⟨_, rfl, by decide⟩)

/-! Claim C2: `compute_csi` and the caller's arrays. -/

/-- C2, counterexample: `compute_csi` mutates its inputs in place
(`road_mask *= trapezoid_mask`, `garbage_mask *= road_mask`): after a
successful call with road `[[1,1,1]]`, garbage `[[2,2,2]]` and region
`[[1,1,0]]`, the caller's arrays hold `[[1,1,0]]` and `[[2,2,0]]`, which
differ from their original contents. -/
theorem computeCsi_mutates_inputs :
    finalMasks (computeCsi (some [[1, 1, 1]]) [[2, 2, 2]] [[1, 1, 0]] paramsC1) =
      some (some [[1, 1, 0]], [[2, 2, 0]]) ∧
    ([[2, 2, 0]] : Mask) ≠ [[2, 2, 2]] ∧ ([[1, 1, 0]] : Mask) ≠ [[1, 1, 1]] :=
  ⟨by decide, by decide, by decide⟩

/-- C2 (amended): `compute_csi` filters its input masks in place.  Whenever a
call on a non-`None` road mask completes without raising, the caller's road
array has been replaced by its elementwise product with the region mask and
the garbage array by its elementwise product with the filtered road — except
on the all-zero-road early exit, which leaves both inputs untouched. -/
theorem computeCsi_final_masks (road garbage trap : Mask) (p : CsiParams)
    (out : Option (ℚ × ℕ)) (fr : Option Mask) (fg : Mask)
    (h : computeCsi (some road) garbage trap p = .ok (out, fr, fg)) :
    (maskAny road = false → fr = some road ∧ fg = garbage) ∧
    (maskAny road = true → fr = some (elemMul road trap) ∧
      fg = elemMul garbage (elemMul road trap)) := by
  constructor
  · intro hz
    rw [computeCsi, hz] at h
    simp only [if_true] at h
    exact ⟨(Prod.ext_iff.mp (Prod.ext_iff.mp (Except.ok.inj h)).2).1.symm,
      (Prod.ext_iff.mp (Prod.ext_iff.mp (Except.ok.inj h)).2).2.symm⟩
  · intro ha
    rw [computeCsi, ha] at h
    simp only [Bool.true_eq_false, if_false] at h
    split at h
    · exact absurd h (by simp)
    · split at h
      · exact absurd h (by simp)
      · split at h
        · simp only [Except.ok.injEq, Prod.mk.injEq] at h
          exact ⟨h.2.1.symm, h.2.2.symm⟩
        · exact absurd h (by simp)
        · split at h
          · simp only [Except.ok.injEq, Prod.mk.injEq] at h
            exact ⟨h.2.1.symm, h.2.2.symm⟩
          · exact absurd h (by simp)
          · split at h
            · exact absurd h (by simp)
            · split at h
              · exact absurd h (by simp)
              · simp only [Except.ok.injEq, Prod.mk.injEq] at h
                exact ⟨h.2.1.symm, h.2.2.symm⟩

/-- Witness for C2's amended theorem at a concrete successful call. -/
theorem computeCsi_final_masks_witness :
    (maskAny [[1, 1, 1]] = false → some [[1, 1, 0]] = some [[1, 1, 1]] ∧
      ([[1, 1, 0]] : Mask) = [[1, 1, 1]]) ∧
    (maskAny [[1, 1, 1]] = true → some [[1, 1, 0]] = some (elemMul [[1, 1, 1]] [[1, 1, 0]]) ∧
      ([[1, 1, 0]] : Mask) = elemMul [[1, 1, 1]] (elemMul [[1, 1, 1]] [[1, 1, 0]])) :=
  computeCsi_final_masks [[1, 1, 1]] [[1, 1, 1]] [[1, 1, 0]] pW
    (some (1, 2)) (some [[1, 1, 0]]) [[1, 1, 0]] (by decide)

/-! Claim C4: degenerate road extents produce `(NaN, NaN)`, not exceptions. -/

theorem nonzeroCols_length_le_one (m : Mask)
    (h : (¬ ∃ j, IsNonzeroCol m j) ∨ ∃! j, IsNonzeroCol m j) :
    (nonzeroCols m).length ≤ 1 := by
  rcases h with hno | ⟨j, _, huniq⟩
  · have : nonzeroCols m = [] := by
      rw [List.eq_nil_iff_forall_not_mem]
      intro a ha
      exact hno ⟨a, (mem_nonzeroCols m a).mp ha⟩
    simp [this]
  · rcases hl : nonzeroCols m with _ | ⟨a, _ | ⟨b, l3⟩⟩
    · simp
    · simp
    · exfalso
      have hnd := nonzeroCols_nodup m
      rw [hl] at hnd
      have hab : a ≠ b := by
        simp only [List.nodup_cons, List.mem_cons] at hnd
        exact fun hab => hnd.1 (Or.inl hab)
      have haj : a = j := huniq a ((mem_nonzeroCols m a).mp (by rw [hl]; simp))
      have hbj : b = j := huniq b ((mem_nonzeroCols m b).mp (by rw [hl]; simp))
      exact hab (haj.trans hbj.symm)

theorem findXminXmax_error_of_degenerate (m : Mask)
    (h : (nonzeroCols m).length ≤ 1) :
    ∃ msg, findXminXmax m = .error (.valueError msg) := by
  unfold findXminXmax
  split_ifs with h1 h2
  · exact ⟨"invalid rows", rfl⟩
  · exact ⟨"invalid cols", rfl⟩
  · rcases hnz : nonzeroCols m with _ | ⟨x, _ | ⟨y, l3⟩⟩
    · exact ⟨"only zeros", rfl⟩
    · exact ⟨"one column", by simp⟩
    · rw [hnz] at h; simp at h

/-- C4: if the ROI-filtered road mask has no nonzero column or exactly one
(`x_min == x_max`), `compute_csi` returns `(NaN, NaN)` and no exception
escapes the per-frame path (the label preconditions of the debug discipline
are assumed valid, as configuration errors are out of the per-frame scope). -/
theorem computeCsi_degenerate_extent (road garbage trap : Mask) (p : CsiParams)
    (hroad : labelsValid road p.roadClassIds = true)
    (hgarb : labelsValid garbage p.garbageClassIds = true)
    (hdeg : (¬ ∃ j, IsNonzeroCol (elemMul road trap) j) ∨
      ∃! j, IsNonzeroCol (elemMul road trap) j) :
    ∃ fr fg, computeCsi (some road) garbage trap p = .ok (none, fr, fg) := by
  by_cases hma : maskAny road = true
  · obtain ⟨msg, hfx⟩ :=
      findXminXmax_error_of_degenerate _ (nonzeroCols_length_le_one _ hdeg)
    refine ⟨some (elemMul road trap), elemMul garbage (elemMul road trap), ?_⟩
    rw [computeCsi, hma, hroad, hgarb]
    simp only [Bool.true_eq_false, if_false, hfx]
  · have hma' : maskAny road = false := by
      rcases Bool.eq_false_or_eq_true (maskAny road) with h | h
      · exact absurd h hma
      · exact h
    exact ⟨some road, garbage, by simp [computeCsi, hma']⟩

/-- Witness for C4: a two-row road mask with a single nonzero column. -/
theorem computeCsi_degenerate_extent_witness :
    ∃ fr fg, computeCsi (some [[1], [1]]) [[0], [0]] [[1], [1]] pW =
      .ok (none, fr, fg) :=
  computeCsi_degenerate_extent [[1], [1]] [[0], [0]] [[1], [1]] pW
    (by decide) (by decide)
    (Or.inr ⟨0, by decide, fun y hy => Nat.lt_one_iff.mp hy.1⟩)

/-! Claim C9: stable argmin semantics of `get_discrete_csi`. -/

theorem argminGo_spec (l : List ℚ) : ∀ (best : ℚ) (bi i : ℕ),
    (argminGo l best bi i = bi ∧ ∀ y ∈ l, best ≤ y) ∨
    (∃ k, k < l.length ∧ argminGo l best bi i = i + k ∧
      l.getD k 0 < best ∧ (∀ y ∈ l, l.getD k 0 ≤ y) ∧
      (∀ m, m < k → l.getD k 0 < l.getD m 0)) := by
  induction l with
  | nil => intro best bi i; left; exact ⟨rfl, by simp⟩
  | cons y ys ih =>
    intro best bi i
    by_cases hy : y < best
    · rcases ih y i (i + 1) with ⟨heq, hall⟩ | ⟨k, hk, heq, hlt, hall, hfirst⟩
      · right
        refine ⟨0, by simp, ?_, by simpa using hy, ?_, ?_⟩
        · simpa [argminGo, hy] using heq
        · intro z hz
          rcases List.mem_cons.mp hz with rfl | hz
          · simp
          · simpa using hall z hz
        · intro m hm; exact absurd hm (Nat.not_lt_zero m)
      · right
        refine ⟨k + 1, by simpa using Nat.succ_lt_succ hk, ?_, ?_, ?_, ?_⟩
        · simp only [argminGo, if_pos hy]; rw [heq]; omega
        · simpa using lt_trans hlt hy
        · intro z hz
          rcases List.mem_cons.mp hz with rfl | hz
          · simpa using le_of_lt hlt
          · simpa using hall z hz
        · intro m hm
          cases m with
          | zero => simpa using hlt
          | succ m2 => simpa using hfirst m2 (Nat.lt_of_succ_lt_succ hm)
    · rcases ih best bi (i + 1) with ⟨heq, hall⟩ | ⟨k, hk, heq, hlt, hall, hfirst⟩
      · left
        refine ⟨by simpa [argminGo, hy] using heq, ?_⟩
        intro z hz
        rcases List.mem_cons.mp hz with rfl | hz
        · exact le_of_not_lt hy
        · exact hall z hz
      · right
        have hyb : best ≤ y := le_of_not_lt hy
        refine ⟨k + 1, by simpa using Nat.succ_lt_succ hk, ?_, by simpa using hlt, ?_, ?_⟩
        · simp only [argminGo, if_neg hy]; rw [heq]; omega
        · intro z hz
          rcases List.mem_cons.mp hz with rfl | hz
          · simpa using le_trans (le_of_lt hlt) hyb
          · simpa using hall z hz
        · intro m hm
          cases m with
          | zero => simpa using lt_of_lt_of_le hlt hyb
          | succ m2 => simpa using hfirst m2 (Nat.lt_of_succ_lt_succ hm)

theorem getD_mem_of_lt (l : List ℚ) (n : ℕ) (hn : n < l.length) : l.getD n 0 ∈ l := by
  rw [List.getD_eq_getElem _ _ hn]
  exact List.getElem_mem hn

theorem argminFirst_spec (d : List ℚ) (hd : d ≠ []) :
    argminFirst d < d.length ∧
    (∀ j, j < d.length → d.getD (argminFirst d) 0 ≤ d.getD j 0) ∧
    (∀ j, j < argminFirst d → d.getD (argminFirst d) 0 < d.getD j 0) := by
  match d, hd with
  | x :: xs, _ =>
    rw [argminFirst]
    rcases argminGo_spec xs x 0 1 with ⟨heq, hall⟩ | ⟨k, hk, heq, hlt, hall, hfirst⟩
    · rw [heq]
      refine ⟨by simp, ?_, ?_⟩
      · intro j hj
        cases j with
        | zero => simp
        | succ j2 =>
          simp only [List.getD_cons_zero, List.getD_cons_succ]
          exact hall _ (getD_mem_of_lt xs j2 (by simpa using hj))
      · intro j hj; exact absurd hj (Nat.not_lt_zero j)
    · rw [heq]
      have h1k : 1 + k = k + 1 := Nat.add_comm 1 k
      rw [h1k]
      refine ⟨by simpa using Nat.succ_lt_succ hk, ?_, ?_⟩
      · intro j hj
        simp only [List.getD_cons_succ]
        cases j with
        | zero => simpa using le_of_lt hlt
        | succ j2 =>
          simp only [List.getD_cons_succ]
          exact hall _ (getD_mem_of_lt xs j2 (by simpa using hj))
      · intro j hj
        simp only [List.getD_cons_succ]
        cases j with
        | zero => simpa using hlt
        | succ j2 =>
          simp only [List.getD_cons_succ]
          exact hfirst j2 (by omega)

theorem distancesGetD (levels : List ℚ) (c : ℚ) (n : ℕ) (hn : n < levels.length) :
    (levels.map (fun l => qAbs (qSub l c))).getD n 0 = |levels.getD n 0 - c| := by
  rw [List.getD_eq_getElem _ _ (by simpa using hn), List.getElem_map,
    List.getD_eq_getElem _ _ hn, qSub_eq, qAbs_eq]

/-- C9: for every non-empty levels array and non-NaN score, `get_discrete_csi`
returns the level minimizing the absolute distance to the score together with
its index, breaking exact ties toward the lowest index; in particular on
`[0, 0.25, 0.5, 0.75, 1]` with score `0.6` it returns level `0.5` at index 2. -/
theorem getDiscreteCsi_argmin :
    (∀ (levels : List ℚ) (c : ℚ), levels ≠ [] →
      ∃ i, getDiscreteCsi levels (some c) = .ok (some (levels.getD i 0, i)) ∧
        i < levels.length ∧
        (∀ j, j < levels.length →
          |levels.getD i 0 - c| ≤ |levels.getD j 0 - c|) ∧
        (∀ j, j < i → |levels.getD i 0 - c| < |levels.getD j 0 - c|)) ∧
    getDiscreteCsi [0, mkRat 1 4, mkRat 1 2, mkRat 3 4, 1] (some (mkRat 3 5)) =
      .ok (some (mkRat 1 2, 2)) := by
  constructor
  · intro levels c hne
    have hdne : levels.map (fun l => qAbs (qSub l c)) ≠ [] := by
      simpa using hne
    have hlen : (levels.map (fun l => qAbs (qSub l c))).length = levels.length := by simp
    obtain ⟨hub, hmin, hfirst⟩ := argminFirst_spec _ hdne
    refine ⟨argminFirst (levels.map (fun l => qAbs (qSub l c))), ?_, by omega, ?_, ?_⟩
    · rw [getDiscreteCsi, if_neg (by simpa [List.length_eq_zero] using hne)]
    · intro j hj
      have h1 := hmin j (by omega)
      rwa [distancesGetD levels c _ (by omega), distancesGetD levels c _ (by omega)] at h1
    · intro j hj
      have h1 := hfirst j hj
      rwa [distancesGetD levels c _ (by omega), distancesGetD levels c _ (by omega)] at h1
  · decide

/-- Witness for the universally quantified part of C9, at `levels = [0, 1]`,
score `0`. -/
theorem getDiscreteCsi_argmin_witness :
    ∃ i, getDiscreteCsi [(0 : ℚ), 1] (some 0) = .ok (some ([(0 : ℚ), 1].getD i 0, i)) ∧
      i < [(0 : ℚ), 1].length ∧
      (∀ j, j < [(0 : ℚ), 1].length →
        |[(0 : ℚ), 1].getD i 0 - 0| ≤ |[(0 : ℚ), 1].getD j 0 - 0|) ∧
      (∀ j, j < i → |[(0 : ℚ), 1].getD i 0 - 0| < |[(0 : ℚ), 1].getD j 0 - 0|) :=
  getDiscreteCsi_argmin.1 [0, 1] 0 (by decide)

/-! Claim C8: the contract of `find_xmin_xmax`. -/

theorem getLastD_mem (xs : List ℕ) (x : ℕ) : xs.getLastD x ∈ x :: xs := by
  induction xs generalizing x with
  | nil => simp
  | cons y ys ih =>
    rw [List.getLastD_cons]
    exact List.mem_cons_of_mem x (ih y)

theorem le_getLastD_of_pairwise (x : ℕ) (xs : List ℕ)
    (h : (x :: xs).Pairwise (· < ·)) : ∀ y ∈ x :: xs, y ≤ xs.getLastD x := by
  induction xs generalizing x with
  | nil => intro y hy; simp at hy; simp [hy]
  | cons z zs ih =>
    intro y hy
    rw [List.getLastD_cons]
    have hp : (z :: zs).Pairwise (· < ·) := (List.pairwise_cons.mp h).2
    have hxz : ∀ w ∈ z :: zs, x < w := (List.pairwise_cons.mp h).1
    rcases List.mem_cons.mp hy with rfl | hy2
    · exact le_trans (le_of_lt (hxz z (by simp))) (ih z hp z (by simp))
    · exact ih z hp y hy2

theorem allzero_iff_no_nonzero_col (m : Mask) (hrect : Rect m) :
    (∀ r ∈ m, ∀ x ∈ r, x = 0) ↔ ¬ ∃ j, IsNonzeroCol m j := by
  constructor
  · rintro hz ⟨j, _, r, hr, hne⟩
    rcases Nat.lt_or_ge j r.length with hj | hj
    · exact hne (by rw [List.getD_eq_getElem _ _ hj]; exact hz r hr _ (List.getElem_mem hj))
    · exact hne (List.getD_eq_default _ _ hj)
  · intro hno r hr x hx
    by_contra hxne
    obtain ⟨i, hi, rfl⟩ := List.mem_iff_getElem.mp hx
    refine hno ⟨i, ?_, r, hr, ?_⟩
    · rw [← hrect r hr]; exact hi
    · rw [List.getD_eq_getElem _ _ hi]; exact hxne

theorem findXminXmax_error_iff (m : Mask)
    (hrow : ¬ m.length < 1) (hcol : ¬ nColsOf m < 1) :
    (∃ e, findXminXmax m = .error e) ↔ (nonzeroCols m).length ≤ 1 := by
  constructor
  · rintro ⟨e, he⟩
    by_contra hlen
    rcases hnz : nonzeroCols m with _ | ⟨x, _ | ⟨y, xs⟩⟩ <;> rw [hnz] at hlen
    · exact hlen (by simp)
    · exact hlen (by simp)
    · have hpw := nonzeroCols_pairwise m
      rw [hnz] at hpw
      have hmem : xs.getLastD y ∈ y :: xs := getLastD_mem xs y
      have hlt : x < xs.getLastD y := (List.pairwise_cons.mp hpw).1 _ hmem
      rw [findXminXmax, if_neg hrow, if_neg hcol, hnz] at he
      simp only [List.getLastD_cons] at he
      rw [if_neg (Nat.ne_of_lt hlt)] at he
      exact Except.noConfusion he
  · intro h
    obtain ⟨msg, hmsg⟩ := findXminXmax_error_of_degenerate m h
    exact ⟨.valueError msg, hmsg⟩

/-- C8: for every rectangular 2D mask with at least one row and one column,
`find_xmin_xmax` returns the first and last column indices containing a
nonzero pixel, with `x_min ≠ x_max`, and it fails with `ValueError` (no usable
extent) exactly when all pixels are zero or exactly one column is nonzero
(`x_min == x_max`). -/
theorem findXminXmax_spec (m : Mask) (hrect : Rect m)
    (hrow : 1 ≤ m.length) (hcol : 1 ≤ nColsOf m) :
    (∀ a b, findXminXmax m = .ok (a, b) →
      IsNonzeroCol m a ∧ IsNonzeroCol m b ∧ a ≠ b ∧
      (∀ j, IsNonzeroCol m j → a ≤ j ∧ j ≤ b)) ∧
    ((∃ e, findXminXmax m = .error e) ↔
      ((∀ r ∈ m, ∀ x ∈ r, x = 0) ∨ ∃! j, IsNonzeroCol m j)) := by
  have hrow' : ¬ m.length < 1 := by omega
  have hcol' : ¬ nColsOf m < 1 := by omega
  constructor
  · intro a b hab
    rw [findXminXmax, if_neg hrow', if_neg hcol'] at hab
    rcases hnz : nonzeroCols m with _ | ⟨x, xs⟩ <;> rw [hnz] at hab
    · exact Except.noConfusion hab
    · simp only at hab
      split at hab
      · exact Except.noConfusion hab
      · have hinj := Except.ok.inj hab
        injection hinj with h1 h2
        subst h1; subst h2
        have hpw := nonzeroCols_pairwise m
        rw [hnz] at hpw
        have hmema : x ∈ nonzeroCols m := by rw [hnz]; exact List.mem_cons_self x xs
        have hmemb : xs.getLastD x ∈ nonzeroCols m := by
          rw [hnz]; exact getLastD_mem xs x
        refine ⟨(mem_nonzeroCols m _).mp hmema, (mem_nonzeroCols m _).mp hmemb, by assumption, ?_⟩
        intro j hj
        have hjmem : j ∈ x :: xs := by rw [← hnz]; exact (mem_nonzeroCols m j).mpr hj
        constructor
        · rcases List.mem_cons.mp hjmem with rfl | hj2
          · exact le_refl j
          · exact le_of_lt ((List.pairwise_cons.mp hpw).1 j hj2)
        · exact le_getLastD_of_pairwise x xs hpw j hjmem
  · rw [findXminXmax_error_iff m hrow' hcol']
    constructor
    · intro h
      rcases hnz : nonzeroCols m with _ | ⟨x, _ | ⟨y, xs⟩⟩
      · left
        refine (allzero_iff_no_nonzero_col m hrect).mpr ?_
        rintro ⟨j, hj⟩
        have : j ∈ nonzeroCols m := (mem_nonzeroCols m j).mpr hj
        rw [hnz] at this
        exact List.not_mem_nil j this
      · right
        refine ⟨x, (mem_nonzeroCols m x).mp (by rw [hnz]; simp), ?_⟩
        intro j hj
        have : j ∈ nonzeroCols m := (mem_nonzeroCols m j).mpr hj
        rw [hnz] at this
        simpa using this
      · rw [hnz] at h; simp at h
    · intro h
      rcases h with hz | hu
      · exact nonzeroCols_length_le_one m
          (Or.inl ((allzero_iff_no_nonzero_col m hrect).mp hz))
      · exact nonzeroCols_length_le_one m (Or.inr hu)

/-- Witness for C8 at the mask `[[0, 1, 0, 1]]`: extent `(1, 3)`. -/
theorem findXminXmax_spec_witness :
    (∀ a b, findXminXmax [[0, 1, 0, 1]] = .ok (a, b) →
      IsNonzeroCol [[0, 1, 0, 1]] a ∧ IsNonzeroCol [[0, 1, 0, 1]] b ∧ a ≠ b ∧
      (∀ j, IsNonzeroCol [[0, 1, 0, 1]] j → a ≤ j ∧ j ≤ b)) ∧
    ((∃ e, findXminXmax [[0, 1, 0, 1]] = .error e) ↔
      ((∀ r ∈ ([[0, 1, 0, 1]] : Mask), ∀ x ∈ r, x = 0) ∨
        ∃! j, IsNonzeroCol [[0, 1, 0, 1]] j)) :=
  findXminXmax_spec [[0, 1, 0, 1]] (by decide) (by decide) (by decide)

/-! Claim C5: parameter clamping and totality of `get_weight_matrix_linspace`. -/

theorem clampBins_eq (nCols : ℕ) (nBins : ℤ) :
    clampBins nCols nBins = min (max nBins 2) ((nCols / 2 : ℕ) : ℤ) := by
  simp only [clampBins]
  split_ifs <;> omega

theorem clampStartStop_fst_nonneg (s t : ℚ) : 0 ≤ (clampStartStop s t).1 := by
  simp only [clampStartStop]
  split_ifs with h1 h2 h3 <;> simp_all

theorem clampStartStop_snd_le_one (s t : ℚ) : (clampStartStop s t).2 ≤ 1 := by
  simp only [clampStartStop]
  split_ifs with h1 h2 h3 <;> simp_all

theorem clampStartStop_fst_le_snd (s t : ℚ) :
    (clampStartStop s t).1 ≤ (clampStartStop s t).2 := by
  simp only [clampStartStop]
  split_ifs with h1 h2 h3 <;> simp_all

theorem clampStartStop_fst_of_le (s t : ℚ) (h : max s 0 ≤ min t 1) :
    s ≤ (clampStartStop s t).1 := by
  simp only [clampStartStop]
  rw [max_le_iff, le_min_iff] at h
  split_ifs with h1 h2 h3 <;> simp_all <;> linarith

theorem clampStartStop_of_valid (s t : ℚ) (h1 : 0 ≤ s) (h2 : s ≤ t) (h3 : t ≤ 1) :
    clampStartStop s t = (s, t) := by
  simp only [clampStartStop]
  rw [if_neg (not_lt.mpr h1), if_neg (not_lt.mpr h3), if_neg (not_lt.mpr h2)]

theorem clampStartStop_idem (s t : ℚ) :
    clampStartStop (clampStartStop s t).1 (clampStartStop s t).2 = clampStartStop s t := by
  rw [clampStartStop_of_valid _ _ (clampStartStop_fst_nonneg s t)
    (clampStartStop_fst_le_snd s t) (clampStartStop_snd_le_one s t)]

theorem clampBins_idem (nCols : ℕ) (nBins : ℤ) :
    clampBins nCols (clampBins nCols nBins) = clampBins nCols nBins := by
  rw [clampBins_eq, clampBins_eq]
  omega

theorem getWeight_ok_elim {nRows nCols : ℕ} {nBins : ℤ} {s t : ℚ} {f : QMat}
    (h : getWeightMatrixLinspace nRows nCols nBins s t = .ok f) :
    nRows ≠ 0 ∧ nCols ≠ 0 ∧ (clampBins nCols nBins).toNat ≠ 0 ∧
    f = List.replicate nRows (weightRow nCols (clampBins nCols nBins).toNat
      (clampStartStop s t).1 (clampStartStop s t).2) := by
  rw [getWeightMatrixLinspace] at h
  split_ifs at h with h1 h2 h3
  exact ⟨h1, h2, by omega, (Except.ok.inj h).symm⟩

/-- C5, counterexample: at `n_rows = 1 > 0`, `n_cols = 1 > 0` the function
raises `ZeroDivisionError` (the clamped `n_bins` is `n_cols // 2 = 0`, so
`grouping = n_cols // (n_bins * 2)` divides by zero) instead of returning a
weight field. -/
theorem getWeight_ncols_one_raises :
    getWeightMatrixLinspace 1 1 5 (mkRat 1 2) (mkRat 3 4) = .error .zeroDivisionError ∧
    ∀ f : QMat, (Except.error .zeroDivisionError : Except PyErr QMat) ≠ .ok f :=
  ⟨by decide, fun _ h => Except.noConfusion h⟩

/-- C5 (amended): for every `n_rows > 0`, `n_cols ≥ 2` and arbitrary `n_bins`,
edge and center weights, `get_weight_matrix_linspace` raises no error: it
returns a weight field equal to the one for the auto-corrected parameters,
where `n_bins` is replaced by `min (max n_bins 2) (n_cols // 2)` (which lies
in `[2, n_cols // 2]` whenever `n_cols ≥ 4`) and the edge/center weights are
clamped to `0 ≤ edge ≤ center ≤ 1` (reset to `(0, 1)` when edge exceeds
center after clamping). -/
theorem getWeight_clamps (nRows nCols : ℕ) (nBins : ℤ) (s t : ℚ)
    (hr : 0 < nRows) (hc : 2 ≤ nCols) :
    ∃ f, getWeightMatrixLinspace nRows nCols nBins s t = .ok f ∧
      getWeightMatrixLinspace nRows nCols (clampBins nCols nBins)
        (clampStartStop s t).1 (clampStartStop s t).2 = .ok f ∧
      clampBins nCols nBins = min (max nBins 2) ((nCols / 2 : ℕ) : ℤ) ∧
      1 ≤ clampBins nCols nBins ∧ clampBins nCols nBins ≤ ((nCols / 2 : ℕ) : ℤ) ∧
      (4 ≤ nCols → 2 ≤ clampBins nCols nBins) ∧
      0 ≤ (clampStartStop s t).1 ∧
      (clampStartStop s t).1 ≤ (clampStartStop s t).2 ∧
      (clampStartStop s t).2 ≤ 1 := by
  have hbins := clampBins_eq nCols nBins
  have hq : 1 ≤ nCols / 2 := by omega
  have h1 : 1 ≤ clampBins nCols nBins := by rw [hbins]; omega
  have hnb : (clampBins nCols nBins).toNat ≠ 0 := by omega
  refine ⟨List.replicate nRows (weightRow nCols (clampBins nCols nBins).toNat
      (clampStartStop s t).1 (clampStartStop s t).2),
    ?_, ?_, hbins, h1, by rw [hbins]; omega, fun h4 => by rw [hbins]; omega,
    clampStartStop_fst_nonneg s t, clampStartStop_fst_le_snd s t,
    clampStartStop_snd_le_one s t⟩
  · rw [getWeightMatrixLinspace, if_neg (by omega), if_neg (by omega), if_neg (by omega)]
  · rw [getWeightMatrixLinspace, clampBins_idem, clampStartStop_idem,
      if_neg (by omega), if_neg (by omega), if_neg (by omega)]

/-- Witness for C5's amended theorem at
`(n_rows, n_cols, n_bins, edge, center) = (1, 4, 48, 0.7, 1)`. -/
theorem getWeight_clamps_witness :
    ∃ f, getWeightMatrixLinspace 1 4 48 (mkRat 7 10) 1 = .ok f ∧
      getWeightMatrixLinspace 1 4 (clampBins 4 48)
        (clampStartStop (mkRat 7 10) 1).1 (clampStartStop (mkRat 7 10) 1).2 = .ok f ∧
      clampBins 4 48 = min (max 48 2) ((4 / 2 : ℕ) : ℤ) ∧
      1 ≤ clampBins 4 48 ∧ clampBins 4 48 ≤ ((4 / 2 : ℕ) : ℤ) ∧
      (4 ≤ 4 → 2 ≤ clampBins 4 48) ∧
      0 ≤ (clampStartStop (mkRat 7 10) 1).1 ∧
      (clampStartStop (mkRat 7 10) 1).1 ≤ (clampStartStop (mkRat 7 10) 1).2 ∧
      (clampStartStop (mkRat 7 10) 1).2 ≤ 1 :=
  getWeight_clamps 1 4 48 (mkRat 7 10) 1 (by decide) (by decide)

/-! Claim C6: bounds on the weight-field entries. -/

theorem mem_assignSlice {row vals : List ℚ} {st : ℕ} {x : ℚ}
    (h : x ∈ assignSlice row st vals) : x ∈ row ∨ x ∈ vals := by
  unfold assignSlice at h
  rcases List.mem_append.mp h with h2 | h2
  · rcases List.mem_append.mp h2 with h3 | h3
    · exact Or.inl (List.take_subset _ _ h3)
    · exact Or.inr h3
  · exact Or.inl (List.drop_subset _ _ h2)

theorem mem_weightMRow {nCols nb : ℕ} {s t x : ℚ} (h : x ∈ weightMRow nCols nb s t) :
    x ∈ linspaceQ s t nb := by
  unfold weightMRow at h
  obtain ⟨w, hw, hx⟩ := List.mem_flatMap.mp h
  rwa [List.eq_of_mem_replicate hx]

theorem mem_weightRow {nCols nb : ℕ} {s t x : ℚ} (h : x ∈ weightRow nCols nb s t) :
    x = 1 ∨ x ∈ linspaceQ s t nb := by
  unfold weightRow at h
  rcases mem_assignSlice h with h2 | h2
  · rcases mem_assignSlice h2 with h3 | h3
    · exact Or.inl (List.eq_of_mem_replicate h3)
    · exact Or.inr (mem_weightMRow h3)
  · exact Or.inr (mem_weightMRow (List.mem_reverse.mp h2))

theorem linspaceQ_mem_bounds {s t : ℚ} (hst : s ≤ t) {n : ℕ} {x : ℚ}
    (hx : x ∈ linspaceQ s t n) : s ≤ x ∧ x ≤ t := by
  unfold linspaceQ at hx
  split_ifs at hx with h1
  · rw [List.mem_singleton] at hx
    exact ⟨hx.symm.le, hx.le.trans hst⟩
  · obtain ⟨k, hk, rfl⟩ := List.mem_map.mp hx
    rw [List.mem_range] at hk
    rw [qAdd_eq, qDiv_eq, qMul_eq, qSub_eq]
    have hden : (0 : ℚ) < ((n - 1 : ℕ) : ℚ) := by
      have h2 : 0 < n - 1 := by omega
      exact_mod_cast h2
    have hk2 : (k : ℚ) ≤ ((n - 1 : ℕ) : ℚ) := Nat.cast_le.mpr (by omega)
    have hts : (0 : ℚ) ≤ t - s := by linarith
    constructor
    · have h0 : 0 ≤ (k : ℚ) * (t - s) / ((n - 1 : ℕ) : ℚ) :=
        div_nonneg (mul_nonneg (Nat.cast_nonneg k) hts) (le_of_lt hden)
      linarith
    · have h3 : (k : ℚ) * (t - s) / ((n - 1 : ℕ) : ℚ) ≤ t - s := by
        rw [div_le_iff₀ hden]
        calc (k : ℚ) * (t - s) ≤ ((n - 1 : ℕ) : ℚ) * (t - s) :=
              mul_le_mul_of_nonneg_right hk2 hts
          _ = (t - s) * ((n - 1 : ℕ) : ℚ) := mul_comm _ _
      linarith

/-- C6, counterexample: with edge weight `0.9` above center weight `0.5`, both
are reset to the defaults `(0, 1)` and the produced field `[[0, 1, 1, 0]]`
contains the entry `0`, strictly below the configured edge weight `0.9`; so
"never falls below the configured edge weight" fails for these parameters. -/
theorem getWeight_entry_below_edge :
    getWeightMatrixLinspace 1 4 2 (mkRat 9 10) (mkRat 1 2) = .ok [[0, 1, 1, 0]] ∧
    ¬ (mkRat 9 10 ≤ (0 : ℚ)) :=
  ⟨by decide, by decide⟩

/-- C6 (amended): every weight-field entry is at most 1, and — whenever the
defaults-reset of the parameter clamping does not fire (clamped edge weight
still at most clamped center weight) — at least the configured edge weight. -/
theorem getWeight_entries_bounded (nRows nCols : ℕ) (nBins : ℤ) (s t : ℚ) (f : QMat)
    (h : getWeightMatrixLinspace nRows nCols nBins s t = .ok f) :
    ∀ row ∈ f, ∀ x ∈ row, x ≤ 1 ∧ (max s 0 ≤ min t 1 → s ≤ x) := by
  obtain ⟨-, -, -, rfl⟩ := getWeight_ok_elim h
  intro row hrow x hx
  rw [List.eq_of_mem_replicate hrow] at hx
  have hb1 := clampStartStop_fst_nonneg s t
  have hb2 := clampStartStop_fst_le_snd s t
  have hb3 := clampStartStop_snd_le_one s t
  rcases mem_weightRow hx with rfl | hlin
  · exact ⟨le_refl 1, fun hcond =>
      le_trans (le_max_left s 0) (le_trans hcond (min_le_right t 1))⟩
  · obtain ⟨hl, hu⟩ := linspaceQ_mem_bounds hb2 hlin
    exact ⟨le_trans hu hb3, fun hcond =>
      le_trans (clampStartStop_fst_of_le s t hcond) hl⟩

/-- Witness for C6's amended theorem at
`(n_rows, n_cols, n_bins, edge, center) = (1, 4, 48, 0.7, 1)`, instantiated at
the entry `0.7` of the produced field `[[0.7, 1, 1, 0.7]]`. -/
theorem getWeight_entries_bounded_witness :
    mkRat 7 10 ≤ (1 : ℚ) ∧ mkRat 7 10 ≤ mkRat 7 10 := by
  have h := getWeight_entries_bounded 1 4 48 (mkRat 7 10) 1
    [[mkRat 7 10, 1, 1, mkRat 7 10]] (by decide)
    [mkRat 7 10, 1, 1, mkRat 7 10] (by decide) (mkRat 7 10) (by decide)
  exact ⟨h.1, h.2 (by decide)⟩

/-! Claim C7: mirror symmetry of the weight field. -/

theorem length_flatMap_replicate (l : List ℚ) (g : ℕ) :
    (l.flatMap (fun w => List.replicate g w)).length = l.length * g := by
  induction l with
  | nil => simp
  | cons x xs ih =>
    simp only [List.flatMap_cons, List.length_append, List.length_replicate, ih,
      List.length_cons]
    ring

theorem linspaceQ_length (s t : ℚ) (n : ℕ) : (linspaceQ s t n).length = n := by
  unfold linspaceQ
  split_ifs with h1
  · simp [h1]
  · simp

theorem weightMRow_two_mul_length_le (nCols nb : ℕ) (s t : ℚ) :
    2 * (weightMRow nCols nb s t).length ≤ nCols := by
  unfold weightMRow
  rw [length_flatMap_replicate, linspaceQ_length s t nb]
  calc 2 * (nb * (nCols / (nb * 2))) = nCols / (nb * 2) * (nb * 2) := by ring
    _ ≤ nCols := Nat.div_mul_le_self _ _

theorem weightRow_structure (nCols nb : ℕ) (s t : ℚ) :
    weightRow nCols nb s t =
      weightMRow nCols nb s t ++
      List.replicate (nCols - 2 * (weightMRow nCols nb s t).length) 1 ++
      (weightMRow nCols nb s t).reverse := by
  have h2W := weightMRow_two_mul_length_le nCols nb s t
  unfold weightRow assignSlice
  generalize weightMRow nCols nb s t = A at h2W ⊢
  simp only [List.take_zero, List.nil_append, Nat.zero_add, List.drop_replicate,
    List.length_reverse]
  rw [List.take_append_eq_append_take, List.take_of_length_le (by omega),
    List.take_replicate]
  rw [List.drop_append_eq_append_drop, List.drop_of_length_le (by omega),
    List.drop_replicate, List.nil_append]
  have e1 : (nCols - A.length - A.length) ⊓ (nCols - A.length) =
      nCols - 2 * A.length := by omega
  have e2 : nCols - A.length - (nCols - A.length + A.length - A.length) = 0 := by omega
  rw [e1, e2]
  simp [List.append_assoc]

theorem weightRow_reverse_eq (nCols nb : ℕ) (s t : ℚ) :
    (weightRow nCols nb s t).reverse = weightRow nCols nb s t := by
  rw [weightRow_structure nCols nb s t]
  simp [List.reverse_append, List.append_assoc]

theorem weightRow_length_eq (nCols nb : ℕ) (s t : ℚ) :
    (weightRow nCols nb s t).length = nCols := by
  have h2W := weightMRow_two_mul_length_le nCols nb s t
  rw [weightRow_structure nCols nb s t]
  simp only [List.length_append, List.length_replicate, List.length_reverse]
  omega

theorem getD_palindrome (l : List ℚ) (hpal : l.reverse = l) (i : ℕ) (hi : i < l.length) :
    l.getD i 0 = l.getD (l.length - 1 - i) 0 := by
  conv_lhs => rw [← hpal]
  have hi' : i < l.reverse.length := by simpa using hi
  rw [List.getD_eq_getElem _ _ hi', List.getElem_reverse,
    ← List.getD_eq_getElem _ _ (by simp at hi' ⊢; omega)]

/-- C7: the weight field is exactly mirror-symmetric about the horizontal
center of its extent: every row has length `n_cols` and
`row[i] = row[n_cols - 1 - i]` for every column index `i`. -/
theorem getWeight_symmetric (nRows nCols : ℕ) (nBins : ℤ) (s t : ℚ) (f : QMat)
    (h : getWeightMatrixLinspace nRows nCols nBins s t = .ok f) :
    ∀ row ∈ f, row.length = nCols ∧
      ∀ i, i < nCols → row.getD i 0 = row.getD (nCols - 1 - i) 0 := by
  obtain ⟨-, -, hnb, rfl⟩ := getWeight_ok_elim h
  intro row hrow
  rw [List.eq_of_mem_replicate hrow]
  have hlen := weightRow_length_eq nCols ((clampBins nCols nBins).toNat) (clampStartStop s t).1 (clampStartStop s t).2
  refine ⟨hlen, fun i hi => ?_⟩
  have hsym := getD_palindrome _
    (weightRow_reverse_eq nCols ((clampBins nCols nBins).toNat) (clampStartStop s t).1 (clampStartStop s t).2)
    i (by rw [hlen]; exact hi)
  rwa [hlen] at hsym

/-- Witness for C7 at
`(n_rows, n_cols, n_bins, edge, center) = (1, 4, 48, 0.7, 1)`, instantiated at
the field row `[0.7, 1, 1, 0.7]` and column index 0. -/
theorem getWeight_symmetric_witness :
    ([mkRat 7 10, 1, 1, mkRat 7 10] : List ℚ).length = 4 ∧
    ([mkRat 7 10, 1, 1, mkRat 7 10] : List ℚ).getD 0 0 =
      ([mkRat 7 10, 1, 1, mkRat 7 10] : List ℚ).getD (4 - 1 - 0) 0 := by
  have h := getWeight_symmetric 1 4 48 (mkRat 7 10) 1
    [[mkRat 7 10, 1, 1, mkRat 7 10]] (by decide)
    [mkRat 7 10, 1, 1, mkRat 7 10] (by decide)
  exact ⟨h.1, h.2 0 (by decide)⟩

/-! Claim C1: the end-to-end scenario.  The run is evaluated in stages (row
structure of the masks, per-row sums, then the final arithmetic) so that each
step is a small, independently checkable computation. -/

theorem zipWith_replicate_right {α β γ : Type} (f : α → β → γ) (xs : List α) (y : β) :
    ∀ n, xs.length ≤ n →
      List.zipWith f xs (List.replicate n y) = xs.map (fun x => f x y) := by
  induction xs with
  | nil => intro n hn; simp
  | cons x xs ih =>
    intro n hn
    cases n with
    | zero => simp at hn
    | succ n2 =>
      simp only [List.replicate_succ, List.zipWith_cons_cons, List.map_cons]
      rw [ih n2 (by simpa using hn)]

theorem qlsum_append (a b : List ℚ) : qlsum (a ++ b) = qlsum a + qlsum b := by
  rw [qlsum_eq, qlsum_eq, qlsum_eq, List.sum_append]

theorem qlsum_replicate (n : ℕ) (x : ℚ) : qlsum (List.replicate n x) = (n : ℚ) * x := by
  rw [qlsum_eq, List.sum_replicate, nsmul_eq_mul]

theorem roadC1_spec :
    roadC1 = mkMask 100 100
      (fun i j => if 10 ≤ i ∧ i < 90 ∧ 10 ≤ j ∧ j < 90 then 1 else 0) := by decide

theorem garbageC1_spec :
    garbageC1 = mkMask 100 100
      (fun i j => if 48 ≤ i ∧ i < 53 ∧ 48 ≤ j ∧ j < 53 then 2 else 0) := by decide

theorem roadC1_rows :
    roadC1 = List.replicate 10 zRowC1 ++ List.replicate 38 iRowC1 ++
      List.replicate 5 iRowC1 ++ List.replicate 37 iRowC1 ++
      List.replicate 10 zRowC1 := by decide

theorem garbageC1_rows :
    garbageC1 = List.replicate 10 zRowC1 ++ List.replicate 38 zRowC1 ++
      List.replicate 5 gbRowC1 ++ List.replicate 37 zRowC1 ++
      List.replicate 10 zRowC1 := by decide

theorem qlsum_wzRowC1 : qlsum wzRowC1 = 0 := by decide

theorem qlsum_wiRowC1 : qlsum wiRowC1 = 68 := by decide

theorem threshSum_wz : qlsum (threshMulRow 2 wzRowC1 zRowC1) = 0 := by decide

theorem threshSum_wi_z : qlsum (threshMulRow 2 wiRowC1 zRowC1) = 0 := by decide

theorem threshSum_wi_b : qlsum (threshMulRow 2 wiRowC1 gbRowC1) = mkRat 323 65 := by
  decide

theorem roadW_C1 :
    List.zipWith (fun r w => sliceMulRow 10 89 (castRow r) w) roadC1
      (List.replicate 100 wRowC1) =
    List.replicate 10 wzRowC1 ++ List.replicate 38 wiRowC1 ++
      List.replicate 5 wiRowC1 ++ List.replicate 37 wiRowC1 ++
      List.replicate 10 wzRowC1 := by
  rw [zipWith_replicate_right _ roadC1 wRowC1 100 (by decide)]
  rw [roadC1_rows]
  simp only [List.map_append, List.map_replicate]
  rfl

theorem roadArea_C1 :
    qlsum (List.map qlsum
      (List.replicate 10 wzRowC1 ++ List.replicate 38 wiRowC1 ++
       List.replicate 5 wiRowC1 ++ List.replicate 37 wiRowC1 ++
       List.replicate 10 wzRowC1)) = 5440 := by
  simp only [List.map_append, List.map_replicate, qlsum_append, qlsum_replicate,
    qlsum_wzRowC1, qlsum_wiRowC1]
  norm_num

theorem garbageArea_C1 :
    garbageArea
      (List.replicate 10 wzRowC1 ++ List.replicate 38 wiRowC1 ++
       List.replicate 5 wiRowC1 ++ List.replicate 37 wiRowC1 ++
       List.replicate 10 wzRowC1) garbageC1 2 = mkRat 323 13 := by
  have h565 : qMul 5 (mkRat 323 65) = mkRat 323 13 := by decide
  rw [qMul_eq] at h565
  unfold garbageArea
  rw [garbageC1_rows]
  rw [List.zipWith_append _ _ _ _ _ (by simp)]
  rw [List.zipWith_append _ _ _ _ _ (by simp)]
  rw [List.zipWith_append _ _ _ _ _ (by simp)]
  rw [List.zipWith_append _ _ _ _ _ (by simp)]
  simp only [List.zipWith_replicate, min_self]
  simp only [qlsum_append, qlsum_replicate, threshSum_wz, threshSum_wi_z, threshSum_wi_b,
    Nat.cast_ofNat]
  rw [← h565]
  ring

theorem weightMatrix_C1 :
    getWeightMatrixLinspace 100 80 48 (mkRat 7 10) 1 = .ok (List.replicate 100 wRowC1) := by
  rw [getWeightMatrixLinspace, if_neg (by decide), if_neg (by decide), if_neg (by decide)]
  rw [show (clampBins 80 48).toNat = 40 from by decide,
    show clampStartStop (mkRat 7 10) 1 = (mkRat 7 10, 1) from by decide]
  rfl

theorem setAreas_C1 (roadW : QMat) (g : Mask) :
    setGarbageAreas roadW g [2] [0, 0] = .ok [0, garbageArea roadW g 2] := by
  simp [setGarbageAreas]

theorem maskAny_roadC1 : maskAny roadC1 = true := by decide

theorem labelsValid_roadC1 : labelsValid roadC1 paramsC1.roadClassIds = true := by decide

theorem labelsValid_garbageC1 : labelsValid garbageC1 paramsC1.garbageClassIds = true := by
  decide

theorem elemMul_roadC1 : elemMul roadC1 roadC1 = roadC1 := by decide

theorem elemMul_garbageC1 : elemMul garbageC1 roadC1 = garbageC1 := by decide

theorem maskSum_garbageC1 : maskSum garbageC1 = 50 := by decide

theorem findXminXmax_roadC1 : findXminXmax roadC1 = .ok (10, 89) := by decide

theorem length_garbageC1 : garbageC1.length = 100 := by decide

theorem labels_garbageC1 :
    (List.filter (fun x => x != 0) garbageC1.flatten).dedup = [2] := by decide

set_option maxHeartbeats 8000000 in
theorem csiC1_eval : csiC1 = .ok (some (relC1, 50), some roadC1, garbageC1) := by
  rw [csiC1, computeCsi, maskAny_roadC1, labelsValid_roadC1, labelsValid_garbageC1]
  simp only [Bool.true_eq_false, if_false]
  rw [elemMul_roadC1, elemMul_garbageC1]
  simp only [maskSum_garbageC1, findXminXmax_roadC1, length_garbageC1, paramsC1]
  simp only [show (89 + 1 - 10 : ℕ) = 80 from by norm_num]
  simp only [weightMatrix_C1]
  rw [roadW_C1, roadArea_C1]
  simp only [labels_garbageC1, List.length_cons, List.length_nil]
  simp only [show List.replicate 2 (0 : ℚ) = [0, 0] from rfl]
  rw [setAreas_C1, garbageArea_C1]
  congr 4

/-- C1, counterexample: in the spec's end-to-end scenario (default
weight-field parameters `n_bins = 48`, edge `0.7`, center `1.0`), the
absolute component of the result equals 50, not 25: the 25 garbage pixels
carry label 2 and `absolute = np.sum(garbage_mask)` sums label values, not a
pixel count.  So "absolute equal to exactly 25" fails on the code. -/
theorem csiC1_absolute_is_50 :
    csiC1 = .ok (some (relC1, 50), some roadC1, garbageC1) ∧ (50 : ℕ) ≠ 25 :=
  ⟨csiC1_eval, by decide⟩

/-- C1 (amended): in the end-to-end scenario with the default weight-field
parameters, `compute_csi` raises nothing and returns `absolute = 50` (the 25
label-2 garbage pixels summed by label value) and a relative score that is
positive and strictly less than 1 (it equals
`1615·10²¹ / (13·(1360·10²² + 1)·...)` ≈ 0.00913). -/
theorem csiC1_amended :
    csiC1 = .ok (some (relC1, 50), some roadC1, garbageC1) ∧
    0 < relC1 ∧ relC1 < 1 :=
  ⟨csiC1_eval, by decide, by decide⟩

end Csi
